import Mathlib

/-!
Verification of the `pathbuf` crate (src/lib.rs).

The crate exports one macro, `pathbuf!`, whose first rule expands
`pathbuf![p1, ..., pn]` to

  let mut temp = PathBuf::with_capacity(size_of_val(p1) + ... + size_of_val(pn) + 0);
  temp.push(p1); ...; temp.push(pn);
  temp

and whose second rule maps the trailing-comma form `pathbuf![p1, ..., pn,]`
to the first rule with the same fragments.

Paths are modelled for a UNIX-style target, the platform used by the
crate's doc examples: a path is its list of characters, a path is
absolute iff it starts with the separator `/`, and `PathBuf::push`
follows the std semantics on such a target: an absolute fragment
replaces the whole buffer, a relative fragment is concatenated onto it,
preceded by a separator when the buffer is nonempty and does not already
end with one.  Capacity is carried explicitly so that statements about
the `with_capacity` reservation can be made; Rust's `==` on `PathBuf`
never observes capacity, so observable equality is equality of `data`.
-/

/-- Predicate of `std::path::Path::is_absolute` on a UNIX-style target:
a path is absolute iff its first character is the separator. -/
def isAbsolute (p : List Char) : Bool :=
  match p with
  | [] => false
  | c :: _ => c = '/'

/-- True when the buffer already ends with the separator, in which case
`PathBuf::push` inserts no extra separator. -/
def endsWithSep (p : List Char) : Bool :=
  match p.getLast? with
  | some c => c = '/'
  | none => false

/-- Content transformation of `std::path::PathBuf::push` on a UNIX-style
target: an absolute fragment replaces the buffer; otherwise the fragment
is appended, with a separator inserted when the buffer is nonempty and
does not already end in one. -/
def pushData (self frag : List Char) : List Char :=
  if isAbsolute frag then frag
  else if self.isEmpty || endsWithSep self then self ++ frag
  else self ++ '/' :: frag

/-- Model of `std::path::PathBuf`: the path's characters plus the
capacity of the backing allocation.  Rust equality on `PathBuf` ignores
capacity, so the observable part is `data`. -/
structure PathBuf where
  data : List Char
  cap : Nat
deriving DecidableEq, Repr

/-- Model of `PathBuf::new()`: empty path, no allocation. -/
def PathBuf.new : PathBuf := ⟨[], 0⟩

/-- Model of `PathBuf::with_capacity(n)`: empty path, `n` bytes reserved. -/
def PathBuf.withCapacity (n : Nat) : PathBuf := ⟨[], n⟩

/-- Model of `PathBuf::push`: the content is `pushData`; the capacity
grows as needed (the exact growth policy is unobservable, so it is
modelled as the least sufficient one). -/
def PathBuf.push (p : PathBuf) (frag : List Char) : PathBuf :=
  ⟨pushData p.data frag, max p.cap (pushData p.data frag).length⟩

/-- Model of `PathBuf::from(s)`: the buffer holding exactly `s`. -/
def pathBufFrom (s : List Char) : PathBuf := ⟨s, s.length⟩

/-- Embedding of the first `pathbuf!` macro rule, with fragments already
evaluated to values.  `sizes` stands for the list of
`std::mem::size_of_val($part)` results: `size_of_val` depends on the
Rust type of each fragment expression, not on its character content, so
the sizes are passed alongside the fragments.  The expansion builds
`PathBuf::with_capacity(sizes.sum)` and pushes each fragment in order. -/
def pathbuf (sizes : List Nat) (frags : List (List Char)) : PathBuf :=
  frags.foldl PathBuf.push (PathBuf.withCapacity sizes.sum)

/-- Embedding of the second `pathbuf!` macro rule (trailing comma): it
invokes the first rule with the same fragment list. -/
def pathbufTrailing (sizes : List Nat) (frags : List (List Char)) : PathBuf :=
  pathbuf sizes frags

/-- Reference assembly: start from `PathBuf::new()` and push each
fragment in order (the spec's sequential-append description). -/
def seqAppend (frags : List (List Char)) : PathBuf :=
  frags.foldl PathBuf.push PathBuf.new

/-- A fragment expression as written at a `pathbuf!` call site: its
evaluation can act on an ambient state `σ` and yields the path-like
value it converts to. -/
structure Expr (σ : Type) where
  eval : σ → σ × List Char

/-- Evaluation of the capacity argument
`size_of_val(p1) + ... + size_of_val(pn) + 0` of the macro expansion:
each fragment expression is evaluated left to right and the sizes of the
resulting values are summed.  `szv` stands for `size_of_val`. -/
def evalSum {σ : Type} (szv : List Char → Nat) (es : List (Expr σ)) (s : σ) : σ × Nat :=
  match es with
  | [] => (s, 0)
  | e :: rest =>
    let r := e.eval s
    let r2 := evalSum szv rest r.1
    (r2.1, szv r.2 + r2.2)

/-- Evaluation of the `temp.push($part);` statements of the macro
expansion: each fragment expression is evaluated left to right and its
value pushed onto the buffer. -/
def runPushes {σ : Type} (es : List (Expr σ)) (s : σ) (buf : PathBuf) : σ × PathBuf :=
  match es with
  | [] => (s, buf)
  | e :: rest =>
    let r := e.eval s
    runPushes rest r.1 (buf.push r.2)

/-- Effectful embedding of the first `pathbuf!` macro rule, fragment
expressions unevaluated: first the capacity argument is evaluated
(which evaluates every fragment expression once, left to right), then
each fragment expression is evaluated again, left to right, and its
value pushed. -/
def pathbufM {σ : Type} (szv : List Char → Nat) (es : List (Expr σ)) (s : σ) : σ × PathBuf :=
  let r := evalSum szv es s
  runPushes es r.1 (PathBuf.withCapacity r.2)

/-- A fragment expression over a trace state that records its identifier
`i` each time it is evaluated and returns the value `v`. -/
def mkLog (i : Nat) (v : List Char) : Expr (List Nat) :=
  ⟨fun l => (l ++ [i], v)⟩

theorem push_data_congr (p q : PathBuf) (f : List Char) (h : p.data = q.data) :
    (p.push f).data = (q.push f).data := by
  show pushData p.data f = pushData q.data f
  rw [h]

theorem foldl_push_data (frags : List (List Char)) :
    ∀ p q : PathBuf, p.data = q.data →
      (frags.foldl PathBuf.push p).data = (frags.foldl PathBuf.push q).data := by
  induction frags with
  | nil => intro p q h; simpa using h
  | cons f rest ih =>
    intro p q h
    exact ih _ _ (push_data_congr p q f h)

theorem pushData_absolute (d f : List Char) (h : isAbsolute f = true) :
    pushData d f = f := by
  simp [pushData, h]

theorem push_empty_data (p : PathBuf) (f : List Char) (hp : p.data = []) :
    (p.push f).data = f := by
  show pushData p.data f = f
  rw [hp]
  by_cases hab : isAbsolute f = true
  · simp [pushData, hab]
  · simp [pushData, hab]

theorem evalSum_pure {σ : Type} (szv : List Char → Nat) (es : List (Expr σ)) :
    ∀ s : σ, (∀ e ∈ es, ∀ t, (e.eval t).1 = t) → (evalSum szv es s).1 = s := by
  induction es with
  | nil => intro s _; rfl
  | cons e rest ih =>
    intro s h
    show (evalSum szv rest (e.eval s).1).1 = s
    rw [h e (List.mem_cons_self e rest) s]
    exact ih s (fun e' he' => h e' (List.mem_cons_of_mem e he'))

theorem runPushes_pure {σ : Type} (es : List (Expr σ)) :
    ∀ (s : σ) (buf : PathBuf), (∀ e ∈ es, ∀ t, (e.eval t).1 = t) →
      (runPushes es s buf).1 = s := by
  induction es with
  | nil => intro s buf _; rfl
  | cons e rest ih =>
    intro s buf h
    show (runPushes rest (e.eval s).1 (buf.push (e.eval s).2)).1 = s
    rw [h e (List.mem_cons_self e rest) s]
    exact ih s _ (fun e' he' => h e' (List.mem_cons_of_mem e he'))

theorem evalSum_log (szv : List Char → Nat) (ps : List (Nat × List Char)) :
    ∀ l : List Nat,
      (evalSum szv (ps.map fun p => mkLog p.1 p.2) l).1 = l ++ ps.map Prod.fst := by
  induction ps with
  | nil => intro l; simp [evalSum]
  | cons p rest ih =>
    intro l
    show (evalSum szv (rest.map fun p => mkLog p.1 p.2) (l ++ [p.1])).1
        = l ++ (p.1 :: rest.map Prod.fst)
    rw [ih (l ++ [p.1])]
    simp

theorem runPushes_log (ps : List (Nat × List Char)) :
    ∀ (l : List Nat) (buf : PathBuf),
      (runPushes (ps.map fun p => mkLog p.1 p.2) l buf).1 = l ++ ps.map Prod.fst := by
  induction ps with
  | nil => intro l buf; simp [runPushes]
  | cons p rest ih =>
    intro l buf
    show (runPushes (rest.map fun p => mkLog p.1 p.2) (l ++ [p.1]) _).1
        = l ++ (p.1 :: rest.map Prod.fst)
    rw [ih (l ++ [p.1])]
    simp

/-- C1: for every fragment list, the buffer produced by the `pathbuf!`
expansion equals (as a path value, the part Rust equality observes) the
buffer obtained by starting from an empty `PathBuf` and sequentially
pushing each fragment, left to right. -/
theorem pathbuf_eq_seqAppend (sizes : List Nat) (frags : List (List Char)) :
    (pathbuf sizes frags).data = (seqAppend frags).data :=
  foldl_push_data frags _ _ rfl

/-- C2: an absolute fragment discards everything assembled before it:
for every decomposition `pre ++ f :: suf` with `f` absolute, assembling
the whole list gives the same path as assembling `f :: suf` alone (for
any capacity reservations); in particular
`pathbuf!["/tmp", "/etc/shadow"]` equals `PathBuf::from("/etc/shadow")`
exactly. -/
theorem pathbuf_absolute_override :
    (∀ (sizes sizes2 : List Nat) (pre suf : List (List Char)) (f : List Char),
        isAbsolute f = true →
        (pathbuf sizes (pre ++ f :: suf)).data = (pathbuf sizes2 (f :: suf)).data) ∧
    (pathbuf [4, 11] ["/tmp".toList, "/etc/shadow".toList]).data
      = (pathBufFrom "/etc/shadow".toList).data := by
  constructor
  · intro sizes sizes2 pre suf f h
    have hL : pathbuf sizes (pre ++ f :: suf)
        = suf.foldl PathBuf.push
            ((pre.foldl PathBuf.push (PathBuf.withCapacity sizes.sum)).push f) := by
      simp [pathbuf, List.foldl_append]
    have hR : pathbuf sizes2 (f :: suf)
        = suf.foldl PathBuf.push ((PathBuf.withCapacity sizes2.sum).push f) := by
      simp [pathbuf]
    rw [hL, hR]
    apply foldl_push_data
    show pushData _ f = pushData _ f
    rw [pushData_absolute _ f h, pushData_absolute _ f h]
  · decide

/-- C2 witness: instantiating the override theorem at the concrete
doc-example scenario `["/tmp", "/etc/shadow"]`. -/
theorem pathbuf_absolute_override_witness :
    (pathbuf [4, 11] (["/tmp".toList] ++ "/etc/shadow".toList :: [])).data
      = (pathbuf [11] ("/etc/shadow".toList :: [])).data :=
  pathbuf_absolute_override.1 [4, 11] [11] ["/tmp".toList] [] "/etc/shadow".toList (by decide)

/-- C3 counterexample: a single fragment expression that increments a
counter each time it is evaluated ends the invocation with counter 2,
not 1 — the expansion evaluates each fragment expression once inside the
`with_capacity` argument and once more at its `push`, so fragments are
not evaluated exactly once. -/
theorem pathbufM_double_eval_counterexample :
    (pathbufM (fun _ => 0) [Expr.mk (fun k : Nat => (k + 1, ['a']))] 0).1 = 2 ∧
    (2 : Nat) ≠ 1 := by
  exact ⟨rfl, by decide⟩

/-- C3 amended: each fragment expression is evaluated exactly twice per
invocation, both passes in left-to-right order — once while the capacity
argument is computed, then once more as the fragment is pushed: the
evaluation trace of the expansion is the fragment order repeated twice. -/
theorem pathbufM_eval_trace (szv : List Char → Nat) (ps : List (Nat × List Char)) :
    (pathbufM szv (ps.map fun p => mkLog p.1 p.2) []).1
      = ps.map Prod.fst ++ ps.map Prod.fst := by
  show (runPushes _ (evalSum szv (ps.map fun p => mkLog p.1 p.2) []).1 _).1 = _
  rw [runPushes_log ps _ _, evalSum_log szv ps []]
  simp

/-- C4: an invocation written with a trailing comma produces a result
identical to the invocation of the same fragment list without it — the
second macro rule delegates to the first with the same fragments. -/
theorem pathbufTrailing_eq (sizes : List Nat) (frags : List (List Char)) :
    pathbufTrailing sizes frags = pathbuf sizes frags :=
  rfl

/-- C5: `pathbuf![]` produces an empty path buffer, equal to a freshly
constructed empty `PathBuf` (here even the reserved capacity, which Rust
equality never observes, coincides). -/
theorem pathbuf_empty : pathbuf [] [] = PathBuf.new :=
  rfl

/-- C6: `pathbuf![f]` produces a buffer equal to the fragment alone,
i.e. to pushing `f` onto an empty `PathBuf`, equivalently to
`PathBuf::from(f)`. -/
theorem pathbuf_single (sz : Nat) (f : List Char) :
    (pathbuf [sz] [f]).data = (PathBuf.new.push f).data ∧
    (pathbuf [sz] [f]).data = (pathBufFrom f).data := by
  have h1 : (pathbuf [sz] [f]).data = f :=
    push_empty_data (PathBuf.withCapacity ([sz].sum)) f rfl
  exact ⟨h1.trans (push_empty_data PathBuf.new f rfl).symm, h1⟩

/-- C7: the assembler is total — for every capacity reservation and
every fragment list (empty strings, upward-traversing components and
absolute overrides included) it returns a buffer, with no failure branch;
likewise the effectful expansion always returns a state and a buffer. -/
theorem pathbuf_never_fails :
    (∀ (sizes : List Nat) (frags : List (List Char)),
        ∃ b : PathBuf, pathbuf sizes frags = b) ∧
    (∀ (σ : Type) (szv : List Char → Nat) (es : List (Expr σ)) (s : σ),
        ∃ r : σ × PathBuf, pathbufM szv es s = r) :=
  ⟨fun _ _ => ⟨_, rfl⟩, fun _ _ _ _ => ⟨_, rfl⟩⟩

/-- C8: the capacity reservation is observably irrelevant — assembling
any fragment list from `PathBuf::with_capacity n`, for any `n`
(including the macro's size heuristic), yields the same path value as
assembling from a default empty `PathBuf` with no preallocation. -/
theorem pathbuf_capacity_irrelevant (n : Nat) (frags : List (List Char)) :
    (frags.foldl PathBuf.push (PathBuf.withCapacity n)).data
      = (frags.foldl PathBuf.push PathBuf.new).data :=
  foldl_push_data frags _ _ rfl

/-- C9: the assembler itself has no side effects beyond the returned
buffer — when the fragment expressions are effect-free, an invocation
leaves the ambient state exactly as it found it (fragments, being
values, are never mutated). -/
theorem pathbufM_pure_state {σ : Type} (szv : List Char → Nat) (es : List (Expr σ)) (s : σ)
    (hpure : ∀ e ∈ es, ∀ t, (e.eval t).1 = t) :
    (pathbufM szv es s).1 = s := by
  show (runPushes es (evalSum szv es s).1 _).1 = s
  rw [runPushes_pure es _ _ hpure, evalSum_pure szv es s hpure]

/-- C9 witness: a concrete invocation with one effect-free fragment
expression leaves the state 5 unchanged. -/
theorem pathbufM_pure_state_witness :
    (pathbufM (fun _ => 0) [Expr.mk (fun t : Nat => (t, ['a']))] 5).1 = 5 :=
  pathbufM_pure_state (fun _ => 0) [Expr.mk (fun t : Nat => (t, ['a']))] 5
    (by
      intro e he t
      rw [List.mem_singleton] at he
      rw [he])

/-- C10: appending distributes over assembly — `pathbuf![f1, ..., fn, g]`
equals (as a path value) first computing `pathbuf![f1, ..., fn]` and
then pushing `g` onto the result, whatever the two capacity
reservations. -/
theorem pathbuf_snoc (sizes sizes2 : List Nat) (frags : List (List Char)) (g : List Char) :
    (pathbuf sizes (frags ++ [g])).data = ((pathbuf sizes2 frags).push g).data := by
  have h : pathbuf sizes (frags ++ [g])
      = (frags.foldl PathBuf.push (PathBuf.withCapacity sizes.sum)).push g := by
    simp [pathbuf, List.foldl_append]
  rw [h]
  exact push_data_congr _ _ g (foldl_push_data frags _ _ rfl)
